import Mathlib

/-!
Shallow embedding of the `RawMemory` / `Vector` container (src/vector.h and
the near-duplicate src/unnamed/part_000) and proofs of the specification
claims about it.

Modelling conventions:
* A raw allocation is a `List (Option α)` of length `capacity`:
  `some a` is a constructed slot holding value `a`, `none` an uninitialized
  (raw) slot.  `std::destroy_at` / `std::destroy_n` set slots to `none`;
  placement-new sets a slot to `some a`.
* Element copy construction / copy assignment may fail (a C++ throw).  It is
  modelled by an oracle `c : α → Option α`: `c a = none` means "copying a
  throws", `c a = some b` means the copy succeeds producing `b`.
  Move construction / move assignment of elements is modelled as value
  transfer and never fails (for the copy-relocation branch of the source the
  moves used are those of the in-place paths, which the source itself treats
  as non-throwing; the move-relocation branch corresponds to `c = some`).
* An operation that can throw returns `Res (Vector α)`:
  `.ok v` is normal return with container state `v`; `.threw v` means the
  exception escaped to the caller and the container was left in state `v`.
-/

set_option autoImplicit false

namespace VectorSpec

variable {α : Type} {β : Type}

/-- Model of `RawMemory<T>` (src/vector.h lines 10-86): one owned allocation
of `buffer.length` element slots; `none` slots are raw memory. -/
structure RawMemory (α : Type) where
  buffer : List (Option α)
deriving DecidableEq, Repr

/-- `RawMemory::Capacity` (line 69-71). -/
def RawMemory.Capacity (m : RawMemory α) : Nat := m.buffer.length

/-- The default-constructed `RawMemory` (`buffer_ = nullptr, capacity_ = 0`). -/
def RawMemory.emptyMem : RawMemory α := ⟨[]⟩

/-- `RawMemory(size_t capacity)` via `Allocate` (lines 15-18, 75-77):
`capacity` raw (unconstructed) slots, none when capacity is 0. -/
def RawMemory.alloc (n : Nat) : RawMemory α := ⟨List.replicate n none⟩

/-- `RawMemory::Swap` (lines 56-59): exchanges buffer and capacity;
returns the pair (this after, other after). -/
def RawMemory.SwapMem (a b : RawMemory α) : RawMemory α × RawMemory α := (b, a)

/-- `RawMemory(RawMemory&& other)` (lines 24-26): the fresh object is
default-initialized, then swapped with `other`.
Returns (constructed object, other after). -/
def RawMemory.moveCtor (other : RawMemory α) : RawMemory α × RawMemory α :=
  RawMemory.SwapMem RawMemory.emptyMem other

/-- `RawMemory::operator=(RawMemory&&)` (lines 28-31): `Swap(rhs)`.
Returns (this after, rhs after). -/
def RawMemory.moveAssign (t s : RawMemory α) : RawMemory α × RawMemory α :=
  RawMemory.SwapMem t s

/-- Result of an operation that may throw: `.ok` is a normal return, `.threw`
means the exception propagated to the caller; both carry the observable
state left behind. -/
inductive Res (σ : Type) where
  | ok (s : σ)
  | threw (s : σ)
deriving DecidableEq, Repr

/-- The state observable after the operation, whether or not it threw. -/
def Res.state {σ : Type} : Res σ → σ
  | .ok s => s
  | .threw s => s

/-- `std::destroy_n(buf + off, n)`: slots `[off, off+n)` become raw. -/
def destroyN (buf : List (Option α)) : Nat → Nat → List (Option α)
  | _, 0 => buf
  | off, n + 1 => destroyN (buf.set off none) (off + 1) n

/-- `std::uninitialized_value_construct_n` / `std::uninitialized_default_construct_n`
with `d` the value produced by `T`'s default constructor:
slots `[off, off+n)` become constructed with value `d`. -/
def fillN (buf : List (Option α)) (d : α) : Nat → Nat → List (Option α)
  | _, 0 => buf
  | off, n + 1 => fillN (buf.set off (some d)) d (off + 1) n

/-- Core of `std::uninitialized_copy_n(src, n, buf + off)` with copy oracle
`c`: copies the elements of `src` into consecutive slots starting at `off`.
`none` models a throw; `uninitialized_copy_n` destroys the elements it had
already constructed before propagating, so on `none` the buffer is the one
passed in (rolled back). -/
def copyNAux (c : α → Option α) : List α → Nat → List (Option α) → Option (List (Option α))
  | [], _, buf => some buf
  | a :: rest, off, buf =>
    match c a with
    | none => none
    | some b => copyNAux c rest (off + 1) (buf.set off (some b))

/-- `std::uninitialized_copy_n` with rollback-on-throw made explicit:
`.threw buf` returns the untouched input buffer. -/
def copyN (c : α → Option α) (src : List α) (off : Nat) (buf : List (Option α)) :
    Res (List (Option α)) :=
  match copyNAux c src off buf with
  | some b => .ok b
  | none => .threw buf

/-- `std::copy(src, src + n, buf + off)`: copy-ASSIGNMENT over already
constructed slots; no rollback, so on a throw the assignments already done
stay in place. -/
def stdCopyAux (c : α → Option α) : List α → Nat → List (Option α) → Res (List (Option α))
  | [], _, buf => .ok buf
  | a :: rest, off, buf =>
    match c a with
    | none => .threw buf
    | some b => stdCopyAux c rest (off + 1) (buf.set off (some b))

/-- `std::move(first, last, dest)` as used by `Erase`: assigns
`buf[i] := buf[i+1]` for `i = off, off+1, …` (`n` assignments, ascending). -/
def moveLeftN (buf : List (Option α)) : Nat → Nat → List (Option α)
  | _, 0 => buf
  | off, n + 1 => moveLeftN (buf.set off (buf.getD (off + 1) none)) (off + 1) n

/-- `std::move_backward(first, last, d_last)` as used by `Emplace`: assigns
`buf[off+k] := buf[off+k-1]` for `k = n, n-1, …, 1` (`n` assignments,
descending). -/
def shiftRightN (buf : List (Option α)) (off : Nat) : Nat → List (Option α)
  | 0 => buf
  | n + 1 => shiftRightN (buf.set (off + n + 1) (buf.getD (off + n) none)) off n

/-- Model of `Vector<T>` (src/vector.h lines 89-313): a `RawMemory` plus the
count of leading constructed slots. -/
structure Vector (α : Type) where
  data : RawMemory α
  size : Nat
deriving DecidableEq, Repr

/-- `Vector::Capacity` (lines 172-174). -/
def Vector.Capacity (v : Vector α) : Nat := v.data.Capacity

/-- The sequence of values stored in the live range `[0, size)`
(what iterating `begin()..end()` observes, under the class invariant). -/
def Vector.live (v : Vector α) : List α := (v.data.buffer.take v.size).filterMap id

/-- `Vector()` (line 95). -/
def Vector.defaultCtor : Vector α := ⟨RawMemory.emptyMem, 0⟩

/-- `Vector(size_t size)` (lines 97-101) with `d` the value produced by
value-construction of `T`. -/
def Vector.sizedCtor (n : Nat) (d : α) : Vector α := ⟨⟨List.replicate n (some d)⟩, n⟩

/-- `Vector(const Vector&)` (lines 103-107): fresh allocation of
`other.size` slots, copy-construct all of `other`'s elements into it.
`none` models a throw escaping the constructor (no object is created;
`uninitialized_copy_n` rolled back, the fresh `RawMemory` is released). -/
def Vector.copyCtor (c : α → Option α) (other : Vector α) : Option (Vector α) :=
  match copyNAux c other.live 0 (List.replicate other.size none) with
  | none => none
  | some buf => some ⟨⟨buf⟩, other.size⟩

/-- `Vector(Vector&&)` (lines 109-112): the data is taken over via the
`RawMemory` move constructor and `size` is exchanged with 0.
Returns (constructed object, other after). -/
def Vector.moveCtor (other : Vector α) : Vector α × Vector α :=
  let md := RawMemory.moveCtor other.data
  (⟨md.1, other.size⟩, ⟨md.2, 0⟩)

/-- `Vector::Swap` (lines 193-196): swaps storage and size.
Returns (this after, other after). -/
def Vector.SwapOp (a b : Vector α) : Vector α × Vector α :=
  let ds := RawMemory.SwapMem a.data b.data
  (⟨ds.1, b.size⟩, ⟨ds.2, a.size⟩)

/-- `Vector::operator=(Vector&&)` (lines 139-142): `Swap(rhs)`.
Returns (this after, rhs after). -/
def Vector.moveAssign (t s : Vector α) : Vector α × Vector α := Vector.SwapOp t s

/-- `Vector::CopyOrMoveAndSwap` (lines 303-312), copy-relocation branch with
oracle `c` (the move-relocation branch is `c = some` and cannot throw):
relocate the `size` live elements into `newData`, destroy the originals,
swap storage.  On a throw the vector is untouched and `newData` is released
by its destructor in the caller. -/
def Vector.CopyOrMoveAndSwap (c : α → Option α) (v : Vector α) (newData : RawMemory α) :
    Res (Vector α) :=
  match copyNAux c v.live 0 newData.buffer with
  | none => .threw v
  | some buf => .ok ⟨⟨buf⟩, v.size⟩

/-- `Vector::Reserve` (lines 176-182). -/
def Vector.Reserve (c : α → Option α) (v : Vector α) (newCapacity : Nat) : Res (Vector α) :=
  if newCapacity ≤ v.Capacity then .ok v
  else v.CopyOrMoveAndSwap c (RawMemory.alloc newCapacity)

/-- `Vector::Resize` (lines 198-207) with `d` the default-constructed value. -/
def Vector.Resize (c : α → Option α) (v : Vector α) (d : α) (newSize : Nat) : Res (Vector α) :=
  if newSize < v.size then
    .ok ⟨⟨destroyN v.data.buffer newSize (v.size - newSize)⟩, newSize⟩
  else if v.size < newSize then
    match v.Reserve c newSize with
    | .threw w => .threw w
    | .ok w => .ok ⟨⟨fillN w.data.buffer d v.size (newSize - v.size)⟩, newSize⟩
  else .ok v

/-- `Vector::EmplaceBack` (lines 237-249) with the element to be constructed
already evaluated to the value `a`.  In the growth branch the new element is
constructed into the new allocation before relocation; if relocation throws,
the exception propagates with the vector untouched (the new allocation,
including that element's memory, is released without running destructors). -/
def Vector.EmplaceBack (c : α → Option α) (v : Vector α) (a : α) : Res (Vector α) :=
  if v.size = v.Capacity then
    match v.CopyOrMoveAndSwap c
        ⟨((RawMemory.alloc (if v.size = 0 then 1 else v.size * 2) : RawMemory α)).buffer.set
          v.size (some a)⟩ with
    | .threw w => .threw w
    | .ok w => .ok ⟨w.data, w.size + 1⟩
  else .ok ⟨⟨v.data.buffer.set v.size (some a)⟩, v.size + 1⟩

/-- `Vector::PushBack` (lines 209-215): delegates to `EmplaceBack`. -/
def Vector.PushBack (c : α → Option α) (v : Vector α) (a : α) : Res (Vector α) :=
  v.EmplaceBack c a

/-- `Vector::PopBack` (lines 217-220).  Precondition: `0 < size`. -/
def Vector.PopBack (v : Vector α) : Vector α :=
  ⟨⟨v.data.buffer.set (v.size - 1) none⟩, v.size - 1⟩

/-- `Vector::Erase` (lines 230-235) at index `p = pos - begin()`.
Precondition: `p < size`. -/
def Vector.Erase (v : Vector α) (p : Nat) : Vector α :=
  Vector.PopBack ⟨⟨moveLeftN v.data.buffer p (v.size - p - 1)⟩, v.size⟩

/-- `Vector::Emplace` (lines 251-297) at index `p = pos - begin()`, with the
new element's value `a`.  Copy-relocation branch with oracle `c`.
Note the two `catch` blocks (lines 268-270, 278-281) destroy the elements
already constructed in the new allocation but do NOT rethrow: control falls
through to `destroy_n` / swap / `++size_`. -/
def Vector.Emplace (c : α → Option α) (v : Vector α) (p : Nat) (a : α) : Res (Vector α) :=
  if p = v.size then v.EmplaceBack c a
  else if v.size = v.Capacity then
    let buf0 := ((RawMemory.alloc (if v.size = 0 then 1 else v.size * 2) : RawMemory α)).buffer.set
      p (some a)
    let buf1 :=
      match copyNAux c (v.live.take p) 0 buf0 with
      | some b => b
      | none => buf0.set p none
    let buf2 :=
      match copyNAux c (v.live.drop p) (p + 1) buf1 with
      | some b => b
      | none => destroyN buf1 0 (p + 1)
    .ok ⟨⟨buf2⟩, v.size + 1⟩
  else
    let buf1 := v.data.buffer.set v.size (v.data.buffer.getD (v.size - 1) none)
    let buf2 := shiftRightN buf1 p (v.size - p - 1)
    .ok ⟨⟨buf2.set p (some a)⟩, v.size + 1⟩

/-- `Vector::Insert` (lines 222-228): delegates to `Emplace`. -/
def Vector.Insert (c : α → Option α) (v : Vector α) (p : Nat) (a : α) : Res (Vector α) :=
  v.Emplace c p a

/-- `Vector::operator=(const Vector&)` (lines 118-137), the `this != &rhs`
branch. -/
def Vector.copyAssign (c : α → Option α) (v rhs : Vector α) : Res (Vector α) :=
  if v.Capacity < rhs.size then
    match Vector.copyCtor c rhs with
    | none => .threw v
    | some rhsCopy => .ok rhsCopy
  else
    let cc := if rhs.size < v.size then rhs.size else v.size
    match stdCopyAux c (rhs.live.take cc) 0 v.data.buffer with
    | .threw buf => .threw ⟨⟨buf⟩, v.size⟩
    | .ok buf1 =>
      if rhs.size < v.size then
        .ok ⟨⟨destroyN buf1 rhs.size (v.size - rhs.size)⟩, rhs.size⟩
      else if v.size < rhs.size then
        match copyNAux c (rhs.live.drop v.size) v.size buf1 with
        | none => .threw ⟨⟨buf1⟩, v.size⟩
        | some buf2 => .ok ⟨⟨buf2⟩, rhs.size⟩
      else .ok ⟨⟨buf1⟩, rhs.size⟩

/-- `Vector::operator=(const Vector&)` (lines 118-137) including the
self-assignment test `this != &rhs`; `self` models pointer identity, so a
call with `self = true` implies `v = rhs`. -/
def Vector.assignOp (c : α → Option α) (self : Bool) (v rhs : Vector α) : Res (Vector α) :=
  if self then .ok v else v.copyAssign c rhs

/-- The class invariant of `Vector` in structural form: the buffer is a block
of constructed slots holding `size` values followed by raw slots. -/
def Layout (buf : List (Option α)) (n : Nat) : Prop :=
  ∃ l r, buf = l.map some ++ List.replicate r none ∧ List.length l = n

/-- The `Vector` class invariant: exactly the prefix `[0, size)` of the
buffer is constructed. -/
def Vector.Inv (v : Vector α) : Prop := Layout v.data.buffer v.size

/-- The infallible copy oracle: element copies succeed and preserve values
(also the semantics of move relocation). -/
def idCopy : α → Option α := fun a => some a


/-! ### List helper lemmas -/

theorem set_at_len (A : List β) (b x : β) (B : List β) :
    (A ++ b :: B).set A.length x = A ++ x :: B := by
  rw [List.set_append_right _ _ (Nat.le_refl _)]
  simp

theorem getD_at_len (A : List β) (b : β) (B : List β) (d : β) :
    (A ++ b :: B).getD A.length d = b := by
  induction A with
  | nil => rfl
  | cons a A ih => simpa using ih

theorem take_at_len (A B : List β) : (A ++ B).take A.length = A :=
  List.take_left A B

theorem drop_at_len (A B : List β) : (A ++ B).drop A.length = B :=
  List.drop_left A B

theorem filterMap_id_map_some (l : List α) : (l.map some).filterMap id = l := by
  induction l with
  | nil => rfl
  | cons a l ih => simpa using ih

/-- The live sequence of a vector in canonical layout form. -/
theorem live_mk (l : List α) (r : Nat) :
    (Vector.live ⟨⟨l.map some ++ List.replicate r none⟩, l.length⟩ : List α) = l := by
  show ((l.map some ++ List.replicate r none).take l.length).filterMap id = l
  have h : (l.map some ++ List.replicate r none).take (l.map some).length = l.map some :=
    take_at_len _ _
  simp only [List.length_map] at h
  rw [h, filterMap_id_map_some]

/-! ### Lemmas about the primitive memory operations -/

theorem copyNAux_ok (src : List α) : ∀ (A B : List (Option α)), src.length ≤ B.length →
    copyNAux idCopy src A.length (A ++ B) = some (A ++ (src.map some ++ B.drop src.length)) := by
  induction src with
  | nil => intro A B _; simp [copyNAux]
  | cons a rest ih =>
    intro A B h
    cases B with
    | nil => simp at h
    | cons b B' =>
      show copyNAux idCopy (a :: rest) A.length (A ++ b :: B') = _
      simp only [copyNAux, idCopy]
      rw [set_at_len]
      have h2 : rest.length ≤ B'.length := by simpa using h
      have h3 := ih (A ++ [some a]) B' h2
      simp only [List.length_append, List.length_cons, List.length_nil] at h3
      rw [List.append_assoc] at h3
      simp only [List.singleton_append] at h3
      rw [show A.length + 1 = A.length + 1 from rfl] at h3
      rw [h3]
      simp [List.append_assoc]

theorem copyNAux_none_iff (c : α → Option α) (src : List α) : ∀ (off : Nat) (buf : List (Option α)),
    (copyNAux c src off buf = none ↔ ∃ a ∈ src, c a = none) := by
  induction src with
  | nil => intro off buf; simp [copyNAux]
  | cons a rest ih =>
    intro off buf
    simp only [copyNAux]
    cases h : c a with
    | none => simp [h]
    | some b => simp [h, ih]

theorem copyNAux_ok_any (c : α → Option α) (src : List α) :
    ∀ (A B buf' : List (Option α)), src.length ≤ B.length →
    copyNAux c src A.length (A ++ B) = some buf' →
    ∃ m : List α, m.length = src.length ∧ buf' = A ++ (m.map some ++ B.drop src.length) := by
  induction src with
  | nil =>
    intro A B buf' _ h
    simp only [copyNAux, Option.some.injEq] at h
    exact ⟨[], rfl, by simp [h.symm]⟩
  | cons a rest ih =>
    intro A B buf' h hc
    cases B with
    | nil => simp at h
    | cons b B' =>
      cases hca : c a with
      | none => simp only [copyNAux, hca] at hc; exact absurd hc (by simp)
      | some x =>
        simp only [copyNAux, hca] at hc
        rw [set_at_len] at hc
        have h2 : rest.length ≤ B'.length := by simpa using h
        have h3 : copyNAux c rest (A ++ [some x]).length ((A ++ [some x]) ++ B') = some buf' := by
          simpa [List.append_assoc] using hc
        obtain ⟨m, hm, hbuf⟩ := ih (A ++ [some x]) B' buf' h2 h3
        refine ⟨x :: m, by simp [hm], ?_⟩
        rw [hbuf]
        simp [List.append_assoc]

theorem destroyN_shape (C : List (Option α)) : ∀ (A B : List (Option α)),
    destroyN (A ++ (C ++ B)) A.length C.length = A ++ (List.replicate C.length none ++ B) := by
  induction C with
  | nil => intro A B; simp [destroyN]
  | cons x C' ih =>
    intro A B
    show destroyN (A ++ x :: (C' ++ B)) A.length (C'.length + 1) = _
    simp only [destroyN]
    rw [set_at_len]
    have h := ih (A ++ [none]) B
    simp only [List.length_append, List.length_cons, List.length_nil] at h
    rw [List.append_assoc] at h
    simp only [List.singleton_append] at h
    rw [h]
    simp [List.append_assoc, List.replicate_succ]

theorem fillN_shape (d : α) (C : List (Option α)) : ∀ (A B : List (Option α)),
    fillN (A ++ (C ++ B)) d A.length C.length = A ++ (List.replicate C.length (some d) ++ B) := by
  induction C with
  | nil => intro A B; simp [fillN]
  | cons x C' ih =>
    intro A B
    show fillN (A ++ x :: (C' ++ B)) d A.length (C'.length + 1) = _
    simp only [fillN]
    rw [set_at_len]
    have h := ih (A ++ [some d]) B
    simp only [List.length_append, List.length_cons, List.length_nil] at h
    rw [List.append_assoc] at h
    simp only [List.singleton_append] at h
    rw [h]
    simp [List.append_assoc, List.replicate_succ]

theorem moveLeftN_shape (xs : List α) : ∀ (A B : List (Option α)) (x : α),
    moveLeftN (A ++ ((x :: xs).map some ++ B)) A.length xs.length =
      A ++ ((xs ++ [xs.getLastD x]).map some ++ B) := by
  induction xs with
  | nil => intro A B x; simp [moveLeftN]
  | cons y ys ih =>
    intro A B x
    show moveLeftN (A ++ (some x :: (some y :: ys.map some ++ B))) A.length (ys.length + 1) = _
    simp only [moveLeftN]
    have hg : (A ++ (some x :: (some y :: ys.map some ++ B))).getD (A.length + 1) none = some y := by
      have := getD_at_len (A ++ [some x]) (some y) (ys.map some ++ B) none
      simpa [List.append_assoc] using this
    rw [hg, set_at_len]
    have h := ih (A ++ [some y]) B y
    simp only [List.length_append, List.length_cons, List.length_nil] at h
    rw [List.append_assoc] at h
    simp only [List.singleton_append, List.map_cons] at h
    rw [h]
    have hfin : ∀ (t : List α), (t.getLastD y) = ((y :: t).getLastD x) := by
      intro t; rw [List.getLastD_cons]
    simp only [List.append_assoc, List.singleton_append, List.map_append, List.map_cons,
      List.map_nil, List.cons_append, List.nil_append]
    rw [hfin ys]

theorem shiftRightN_shape (m : List α) : ∀ (A B : List (Option α)) (z : α),
    shiftRightN (A ++ ((m ++ [z]).map some ++ B)) A.length m.length =
      A ++ ((m.headD z :: m).map some ++ B) := by
  induction m using List.reverseRecOn with
  | nil => intro A B z; simp [shiftRightN]
  | append_singleton l w ih =>
    intro A B z
    simp only [List.length_append, List.length_cons, List.length_nil]
    show shiftRightN _ A.length (l.length + 1) = _
    simp only [shiftRightN]
    have hbuf : A ++ (((l ++ [w]) ++ [z]).map some ++ B) =
        (A ++ l.map some ++ [some w]) ++ some z :: B := by
      simp [List.append_assoc]
    have hg : (A ++ (((l ++ [w]) ++ [z]).map some ++ B)).getD (A.length + l.length) none
        = some w := by
      rw [hbuf]
      have := getD_at_len (A ++ l.map some) (some w) (some z :: B) none
      simp only [List.length_append, List.length_map] at this
      calc ((A ++ l.map some ++ [some w]) ++ some z :: B).getD (A.length + l.length) none
          = ((A ++ l.map some) ++ some w :: (some z :: B)).getD (A.length + l.length) none := by
            simp [List.append_assoc]
        _ = some w := this
    have hset : (A ++ (((l ++ [w]) ++ [z]).map some ++ B)).set (A.length + l.length + 1) (some w)
        = A ++ ((l ++ [w]).map some ++ (some w :: B)) := by
      rw [hbuf]
      have := set_at_len (A ++ l.map some ++ [some w]) (some z) (some w) B
      simp only [List.length_append, List.length_map, List.length_cons, List.length_nil] at this
      calc ((A ++ l.map some ++ [some w]) ++ some z :: B).set (A.length + l.length + 1) (some w)
          = ((A ++ l.map some ++ [some w]) ++ some z :: B).set (A.length + l.length + 1 + 0)
              (some w) := by rfl
        _ = A ++ ((l ++ [w]).map some ++ (some w :: B)) := by
            rw [show A.length + l.length + 1 + 0 = A.length + l.length + 1 from rfl]
            rw [this]
            simp [List.append_assoc]
    rw [hg, hset]
    have h := ih A (some w :: B) w
    rw [h]
    have hhead : (l ++ [w]).headD z = l.headD w := by cases l <;> rfl
    simp only [List.append_assoc, List.singleton_append, List.map_append, List.map_cons,
      List.map_nil, List.cons_append, List.nil_append]
    rw [show ((l ++ [w]).headD z) = l.headD w from hhead]

theorem stdCopyAux_layout (c : α → Option α) (src : List α) :
    ∀ (off : Nat) (l : List α) (R : List (Option α)), off + src.length ≤ l.length →
    ∃ l' : List α, l'.length = l.length ∧
      (stdCopyAux c src off (l.map some ++ R)).state = l'.map some ++ R := by
  induction src with
  | nil => intro off l R _; exact ⟨l, rfl, rfl⟩
  | cons a rest ih =>
    intro off l R h
    simp only [List.length_cons] at h
    cases hca : c a with
    | none => exact ⟨l, rfl, by simp [stdCopyAux, hca, Res.state]⟩
    | some b =>
      have hoff : off < l.length := by omega
      have hset : (l.map some ++ R).set off (some b) = (l.set off b).map some ++ R := by
        rw [List.set_append_left _ _ (by simpa using hoff), List.map_set]
      have h2 : off + 1 + rest.length ≤ (l.set off b).length := by
        simp only [List.length_set]; omega
      obtain ⟨l', hlen, hres⟩ := ih (off + 1) (l.set off b) R h2
      refine ⟨l', by simpa using hlen, ?_⟩
      simp only [stdCopyAux, hca, hset]
      exact hres

/-! ### Canonical layout form and basic facts -/

/-- A vector in canonical layout: `l` the constructed values, `r` trailing
raw slots. -/
def mkVec (l : List α) (r : Nat) : Vector α :=
  ⟨⟨l.map some ++ List.replicate r none⟩, l.length⟩

theorem mkVec_Inv (l : List α) (r : Nat) : (mkVec l r).Inv := ⟨l, r, rfl, rfl⟩

theorem mkVec_live (l : List α) (r : Nat) : (mkVec l r).live = l := live_mk l r

theorem mkVec_size (l : List α) (r : Nat) : (mkVec l r).size = l.length := rfl

theorem mkVec_Capacity (l : List α) (r : Nat) : (mkVec l r).Capacity = l.length + r := by
  simp [mkVec, Vector.Capacity, RawMemory.Capacity]

theorem Vector.inv_elim {v : Vector α} (h : v.Inv) : ∃ l r, v = mkVec l r := by
  obtain ⟨l, r, hbuf, hlen⟩ := h
  refine ⟨l, r, ?_⟩
  cases v with
  | mk d s =>
    cases d with
    | mk buf =>
      simp only [mkVec]
      simp only at hbuf hlen
      rw [hbuf, hlen]

theorem set_replicate_mid (k i : Nat) (x : Option α) (h : i < k) :
    (List.replicate k (none : Option α)).set i x =
      List.replicate i none ++ x :: List.replicate (k - i - 1) none := by
  have hk : k = i + (1 + (k - i - 1)) := by omega
  conv_lhs => rw [hk]
  rw [List.replicate_add, List.replicate_add]
  have := set_at_len (List.replicate i (none : Option α)) none x
    (List.replicate (k - i - 1) none)
  simp only [List.length_replicate] at this
  simp only [List.replicate_succ, List.replicate, List.singleton_append]
  exact this

/-! ### Shape lemmas for the vector operations -/

theorem CMS_threw {c : α → Option α} {v w : Vector α} {newData : RawMemory α}
    (h : v.CopyOrMoveAndSwap c newData = .threw w) : w = v := by
  unfold Vector.CopyOrMoveAndSwap at h
  cases hc : copyNAux c v.live 0 newData.buffer with
  | none => rw [hc] at h; cases h; rfl
  | some b => rw [hc] at h; cases h

theorem CMS_threw_of_fail {c : α → Option α} (v : Vector α) (newData : RawMemory α)
    (h : ∃ a ∈ v.live, c a = none) :
    v.CopyOrMoveAndSwap c newData = .threw v := by
  unfold Vector.CopyOrMoveAndSwap
  rw [(copyNAux_none_iff c v.live 0 newData.buffer).mpr h]

theorem CMS_ok_any {c : α → Option α} {l : List α} {r : Nat} {B : List (Option α)}
    {w : Vector α} (hlen : l.length ≤ B.length)
    (h : (mkVec l r).CopyOrMoveAndSwap c ⟨B⟩ = .ok w) :
    ∃ m : List α, m.length = l.length ∧ w = ⟨⟨m.map some ++ B.drop l.length⟩, l.length⟩ := by
  unfold Vector.CopyOrMoveAndSwap at h
  rw [mkVec_live] at h
  cases hc : copyNAux c l 0 B with
  | none => rw [hc] at h; cases h
  | some buf =>
    rw [hc] at h
    cases h
    have h0 : copyNAux c l (List.length ([] : List (Option α))) ([] ++ B) = some buf := hc
    obtain ⟨m, hm, hbuf⟩ := copyNAux_ok_any c l [] B buf hlen h0
    exact ⟨m, hm, by rw [mkVec_size, hbuf]; rfl⟩

theorem CMS_ok_id (l : List α) (r : Nat) (B : List (Option α)) (hlen : l.length ≤ B.length) :
    (mkVec l r).CopyOrMoveAndSwap idCopy ⟨B⟩ =
      .ok ⟨⟨l.map some ++ B.drop l.length⟩, l.length⟩ := by
  unfold Vector.CopyOrMoveAndSwap
  rw [mkVec_live]
  have h0 := copyNAux_ok l [] B hlen
  simp only [List.length_nil, List.nil_append] at h0
  rw [h0]
  rfl

theorem Reserve_le {c : α → Option α} (v : Vector α) (n : Nat) (h : n ≤ v.Capacity) :
    v.Reserve c n = .ok v := by
  unfold Vector.Reserve
  rw [if_pos h]

theorem Reserve_threw {c : α → Option α} {v w : Vector α} {n : Nat}
    (h : v.Reserve c n = .threw w) : w = v := by
  unfold Vector.Reserve at h
  by_cases hle : n ≤ v.Capacity
  · rw [if_pos hle] at h; cases h
  · rw [if_neg hle] at h; exact CMS_threw h

theorem Reserve_threw_of_fail {c : α → Option α} (v : Vector α) (n : Nat)
    (hgt : v.Capacity < n) (h : ∃ a ∈ v.live, c a = none) :
    v.Reserve c n = .threw v := by
  unfold Vector.Reserve
  rw [if_neg (by omega)]
  exact CMS_threw_of_fail v _ h

theorem Reserve_id_gt (l : List α) (r n : Nat) (h : l.length + r < n) :
    (mkVec l r).Reserve idCopy n = .ok (mkVec l (n - l.length)) := by
  unfold Vector.Reserve
  rw [if_neg (by rw [mkVec_Capacity]; omega)]
  have hlen : l.length ≤ (List.replicate n (none : Option α)).length := by
    simp; omega
  have := CMS_ok_id l r (List.replicate n none) hlen
  rw [show (RawMemory.alloc n : RawMemory α) = ⟨List.replicate n none⟩ from rfl, this]
  simp [mkVec, List.drop_replicate]

theorem Reserve_ok_any {c : α → Option α} {l : List α} {r n : Nat} {w : Vector α}
    (h : (mkVec l r).Reserve c n = .ok w) :
    ∃ m r', m.length = l.length ∧ n ≤ l.length + r' ∧ w = mkVec m r' := by
  unfold Vector.Reserve at h
  by_cases hle : n ≤ (mkVec l r).Capacity
  · rw [if_pos hle] at h
    cases h
    exact ⟨l, r, rfl, by rw [mkVec_Capacity] at hle; omega, rfl⟩
  · rw [if_neg hle] at h
    rw [mkVec_Capacity] at hle
    have hlen : l.length ≤ (List.replicate n (none : Option α)).length := by simp; omega
    obtain ⟨m, hm, hw⟩ := CMS_ok_any hlen h
    refine ⟨m, n - l.length, hm, by omega, ?_⟩
    rw [hw]
    simp [mkVec, List.drop_replicate, hm]
theorem EmplaceBack_id_grow (l : List α) (a : α) :
    (mkVec l 0).EmplaceBack idCopy a =
      .ok (mkVec (l ++ [a]) ((if l.length = 0 then 1 else l.length * 2) - l.length - 1)) := by
  unfold Vector.EmplaceBack
  rw [if_pos (show (mkVec l 0).size = (mkVec l 0).Capacity by
    rw [mkVec_Capacity, mkVec_size]; omega)]
  have hlt : l.length < (if l.length = 0 then 1 else l.length * 2) := by
    by_cases h0 : l.length = 0
    · simp [h0]
    · rw [if_neg h0]; omega
  have hset : ((RawMemory.alloc (if (mkVec l 0).size = 0 then 1 else (mkVec l 0).size * 2) :
      RawMemory α)).buffer.set (mkVec l 0).size (some a) =
      List.replicate l.length none ++
        some a :: List.replicate ((if l.length = 0 then 1 else l.length * 2) - l.length - 1) none := by
    rw [mkVec_size]
    exact set_replicate_mid _ _ _ hlt
  rw [hset]
  have hdrop : (List.replicate l.length (none : Option α) ++
      some a :: List.replicate ((if l.length = 0 then 1 else l.length * 2) - l.length - 1) none).drop
        l.length =
      some a :: List.replicate ((if l.length = 0 then 1 else l.length * 2) - l.length - 1) none := by
    have := drop_at_len (List.replicate l.length (none : Option α))
      (some a :: List.replicate ((if l.length = 0 then 1 else l.length * 2) - l.length - 1) none)
    simpa using this
  have hlen : l.length ≤ (List.replicate l.length (none : Option α) ++
      some a :: List.replicate ((if l.length = 0 then 1 else l.length * 2) - l.length - 1)
        none).length := by
    simp
  rw [CMS_ok_id l 0 _ hlen, hdrop]
  simp [mkVec]

theorem EmplaceBack_id_room (l : List α) (r : Nat) (a : α) (hr : 0 < r) :
    (mkVec l r).EmplaceBack idCopy a = .ok (mkVec (l ++ [a]) (r - 1)) := by
  unfold Vector.EmplaceBack
  rw [if_neg (show ¬ (mkVec l r).size = (mkVec l r).Capacity by
    rw [mkVec_Capacity, mkVec_size]; omega)]
  obtain ⟨r', rfl⟩ : ∃ r', r = r' + 1 := ⟨r - 1, by omega⟩
  have hbuf : (mkVec l (r' + 1)).data.buffer =
      l.map some ++ none :: List.replicate r' none := by
    simp [mkVec, List.replicate_succ]
  have hset : ((mkVec l (r' + 1)).data.buffer).set (mkVec l (r' + 1)).size (some a) =
      l.map some ++ some a :: List.replicate r' none := by
    rw [hbuf, mkVec_size]
    have := set_at_len (l.map some) none (some a) (List.replicate r' none)
    simpa using this
  rw [hset]
  simp [mkVec]

theorem EmplaceBack_threw {c : α → Option α} {v w : Vector α} {a : α}
    (h : v.EmplaceBack c a = .threw w) : w = v := by
  unfold Vector.EmplaceBack at h
  by_cases hcap : v.size = v.Capacity
  · rw [if_pos hcap] at h
    cases hcms : v.CopyOrMoveAndSwap c
        ⟨((RawMemory.alloc (if v.size = 0 then 1 else v.size * 2) : RawMemory α)).buffer.set
          v.size (some a)⟩ with
    | threw w' => rw [hcms] at h; cases h; exact CMS_threw hcms
    | ok w' => rw [hcms] at h; cases h
  · rw [if_neg hcap] at h; cases h

theorem EmplaceBack_threw_of_fail {c : α → Option α} (l : List α) (a : α)
    (hfail : ∃ x ∈ l, c x = none) :
    (mkVec l 0).EmplaceBack c a = .threw (mkVec l 0) := by
  unfold Vector.EmplaceBack
  rw [if_pos (show (mkVec l 0).size = (mkVec l 0).Capacity by
    rw [mkVec_Capacity, mkVec_size]; omega)]
  rw [CMS_threw_of_fail (mkVec l 0) _ (by rw [mkVec_live]; exact hfail)]

theorem EmplaceBack_ok_shape {c : α → Option α} {l : List α} {r : Nat} {a : α} {w : Vector α}
    (h : (mkVec l r).EmplaceBack c a = .ok w) :
    ∃ m r', m.length = l.length + 1 ∧ w = mkVec m r' ∧
      m.length + r' = (if r = 0 then (if l.length = 0 then 1 else l.length * 2)
        else l.length + r) := by
  unfold Vector.EmplaceBack at h
  by_cases hcap : (mkVec l r).size = (mkVec l r).Capacity
  · have hr0 : r = 0 := by rw [mkVec_Capacity, mkVec_size] at hcap; omega
    subst hr0
    rw [if_pos hcap] at h
    have hlt : l.length < (if l.length = 0 then 1 else l.length * 2) := by
      by_cases h0 : l.length = 0
      · simp [h0]
      · rw [if_neg h0]; omega
    have hset : ((RawMemory.alloc (if (mkVec l 0).size = 0 then 1 else (mkVec l 0).size * 2) :
        RawMemory α)).buffer.set (mkVec l 0).size (some a) =
        List.replicate l.length none ++
          some a :: List.replicate ((if l.length = 0 then 1 else l.length * 2) - l.length - 1)
            none := by
      rw [mkVec_size]
      exact set_replicate_mid _ _ _ hlt
    rw [hset] at h
    cases hcms : (mkVec l 0).CopyOrMoveAndSwap c
        ⟨List.replicate l.length none ++
          some a :: List.replicate ((if l.length = 0 then 1 else l.length * 2) - l.length - 1)
            none⟩ with
    | threw w' => rw [hcms] at h; cases h
    | ok w' =>
      rw [hcms] at h
      cases h
      obtain ⟨m, hm, hw'⟩ := CMS_ok_any (by simp) hcms
      have hdrop : (List.replicate l.length (none : Option α) ++
          some a :: List.replicate ((if l.length = 0 then 1 else l.length * 2) - l.length - 1)
            none).drop l.length =
          some a :: List.replicate ((if l.length = 0 then 1 else l.length * 2) - l.length - 1)
            none := by
        have := drop_at_len (List.replicate l.length (none : Option α))
          (some a ::
            List.replicate ((if l.length = 0 then 1 else l.length * 2) - l.length - 1) none)
        simpa using this
    
      refine ⟨m ++ [a], (if l.length = 0 then 1 else l.length * 2) - l.length - 1,
        by simp [hm], ?_, by simp [hm]; omega⟩
      rw [hw', hdrop]
      simp [mkVec, hm]
  · rw [if_neg hcap] at h
    have hr : 0 < r := by rw [mkVec_Capacity, mkVec_size] at hcap; omega
    obtain ⟨r', rfl⟩ : ∃ r', r = r' + 1 := ⟨r - 1, by omega⟩
    have hset : ((mkVec l (r' + 1)).data.buffer).set (mkVec l (r' + 1)).size (some a) =
        l.map some ++ some a :: List.replicate r' none := by
      have hbuf : (mkVec l (r' + 1)).data.buffer =
          l.map some ++ none :: List.replicate r' none := by
        simp [mkVec, List.replicate_succ]
      rw [hbuf, mkVec_size]
      have := set_at_len (l.map some) none (some a) (List.replicate r' none)
      simpa using this
    rw [hset] at h
    cases h
    exact ⟨l ++ [a], r', by simp, by simp [mkVec], by simp; omega⟩
theorem Resize_id_shrink {c : α → Option α} (l : List α) (r n : Nat) (d : α)
    (h : n < l.length) :
    (mkVec l r).Resize c d n = .ok (mkVec (l.take n) (l.length - n + r)) := by
  unfold Vector.Resize
  rw [if_pos (show n < (mkVec l r).size from h)]
  have hdec : (mkVec l r).data.buffer =
      (l.take n).map some ++ (((l.drop n).map some) ++ List.replicate r none) := by
    show l.map some ++ List.replicate r none = _
    rw [← List.append_assoc, ← List.map_append, List.take_append_drop]
  have hn : (l.take n).length = n := List.length_take_of_le (Nat.le_of_lt h)
  have htl : ((l.take n).map some).length = n := by rw [List.length_map, hn]
  have hdl : ((l.drop n).map some).length = l.length - n := by simp
  have hd := destroyN_shape ((l.drop n).map some) ((l.take n).map some)
    (List.replicate r none)
  rw [htl, hdl] at hd
  rw [hdec, mkVec_size, hd]
  have hrep : List.replicate (l.length - n) (none : Option α) ++ List.replicate r none =
      List.replicate (l.length - n + r) none := (List.replicate_add _ _ _).symm
  rw [hrep]
  simp only [mkVec, Res.ok.injEq, Vector.mk.injEq, RawMemory.mk.injEq, hn]

theorem Resize_id_eq {c : α → Option α} (v : Vector α) (d : α) :
    v.Resize c d v.size = .ok v := by
  unfold Vector.Resize
  rw [if_neg (by omega), if_neg (by omega)]

theorem fill_layout (l : List α) (r n : Nat) (d : α) (hn : l.length ≤ n)
    (hr : n ≤ l.length + r) :
    fillN (mkVec l r).data.buffer d l.length (n - l.length) =
      (l ++ List.replicate (n - l.length) d).map some ++
        List.replicate (r - (n - l.length)) none := by
  have hdec : (mkVec l r).data.buffer =
      l.map some ++ (List.replicate (n - l.length) none ++
        List.replicate (r - (n - l.length)) none) := by
    show l.map some ++ List.replicate r none = _
    rw [← List.replicate_add]
    congr 1
    congr 1
    omega
  have hf := fillN_shape d (List.replicate (n - l.length) (none : Option α)) (l.map some)
    (List.replicate (r - (n - l.length)) none)
  simp only [List.length_map, List.length_replicate] at hf
  rw [hdec, hf]
  simp [List.map_replicate]

theorem Resize_id_grow (l : List α) (r n : Nat) (d : α) (hgt : l.length < n) :
    (mkVec l r).Resize idCopy d n =
      .ok (mkVec (l ++ List.replicate (n - l.length) d)
        (if n ≤ l.length + r then r - (n - l.length) else 0)) := by
  unfold Vector.Resize
  rw [if_neg (show ¬ n < (mkVec l r).size by rw [mkVec_size]; omega),
    if_pos (show (mkVec l r).size < n from hgt)]
  by_cases hle : n ≤ l.length + r
  · rw [Reserve_le (mkVec l r) n (by rw [mkVec_Capacity]; omega)]
    show Res.ok (⟨⟨fillN (mkVec l r).data.buffer d l.length (n - l.length)⟩, n⟩ : Vector α) = _
    rw [fill_layout l r n d (by omega) hle, if_pos hle]
    simp only [mkVec, Res.ok.injEq, Vector.mk.injEq, RawMemory.mk.injEq]
    refine ⟨trivial, ?_⟩
    simp
    omega
  · rw [Reserve_id_gt l r n (by omega)]
    show Res.ok
      (⟨⟨fillN (mkVec l (n - l.length)).data.buffer d l.length (n - l.length)⟩, n⟩ : Vector α)
        = _
    rw [fill_layout l (n - l.length) n d (by omega) (by omega), if_neg hle]
    simp only [mkVec, Res.ok.injEq, Vector.mk.injEq, RawMemory.mk.injEq, Nat.sub_self]
    refine ⟨trivial, ?_⟩
    simp
    omega

theorem Resize_threw {c : α → Option α} {v w : Vector α} {d : α} {n : Nat}
    (h : v.Resize c d n = .threw w) : w = v := by
  unfold Vector.Resize at h
  by_cases h1 : n < v.size
  · rw [if_pos h1] at h; cases h
  · rw [if_neg h1] at h
    by_cases h2 : v.size < n
    · rw [if_pos h2] at h
      cases hres : v.Reserve c n with
      | threw w2 =>
        rw [hres] at h
        have h3 : (Res.threw w2 : Res (Vector α)) = Res.threw w := h
        cases h3
        exact Reserve_threw hres
      | ok w2 =>
        rw [hres] at h
        have h3 : Res.ok (⟨⟨fillN w2.data.buffer d v.size (n - v.size)⟩, n⟩ : Vector α)
            = Res.threw w := h
        cases h3
    · rw [if_neg h2] at h; cases h

theorem Resize_ok_inv {c : α → Option α} {l : List α} {r n : Nat} {d : α} {w : Vector α}
    (h : (mkVec l r).Resize c d n = .ok w) : w.Inv ∧ w.size = n := by
  unfold Vector.Resize at h
  by_cases h1 : n < (mkVec l r).size
  · rw [if_pos h1] at h
    rw [mkVec_size] at h1
    have heq := Resize_id_shrink (c := c) l r n d h1
    unfold Vector.Resize at heq
    rw [if_pos (show n < (mkVec l r).size from h1)] at heq
    rw [heq] at h
    cases h
    exact ⟨mkVec_Inv _ _, by rw [mkVec_size, List.length_take_of_le (by omega)]⟩
  · rw [if_neg h1] at h
    by_cases h2 : (mkVec l r).size < n
    · rw [if_pos h2] at h
      cases hres : (mkVec l r).Reserve c n with
      | threw w2 => rw [hres] at h; cases h
      | ok w2 =>
        rw [hres] at h
        obtain ⟨m, r2, hm, hnr, rfl⟩ := Reserve_ok_any hres
        rw [mkVec_size] at h2
        have h3 : Res.ok
            (⟨⟨fillN (mkVec m r2).data.buffer d l.length (n - l.length)⟩, n⟩ : Vector α)
            = Res.ok w := h
        rw [show fillN (mkVec m r2).data.buffer d l.length (n - l.length) =
          fillN (mkVec m r2).data.buffer d m.length (n - m.length) by rw [hm]] at h3
        rw [fill_layout m r2 n d (by omega) (by omega)] at h3
        cases h3
        refine ⟨⟨m ++ List.replicate (n - m.length) d, r2 - (n - m.length), rfl, ?_⟩, rfl⟩
        simp
        omega
    · rw [if_neg h2] at h
      cases h
      rw [mkVec_size] at h1 h2 ⊢
      exact ⟨mkVec_Inv _ _, by omega⟩

theorem PopBack_shape (l : List α) (y : α) (r : Nat) :
    Vector.PopBack (mkVec (l ++ [y]) r) = mkVec l (r + 1) := by
  unfold Vector.PopBack
  have hs : (mkVec (l ++ [y]) r).size - 1 = l.length := by simp [mkVec_size]
  have hbuf : (mkVec (l ++ [y]) r).data.buffer =
      l.map some ++ some y :: List.replicate r none := by
    simp [mkVec]
  rw [hs, hbuf]
  have := set_at_len (l.map some) (some y) none (List.replicate r none)
  simp only [List.length_map] at this
  rw [this]
  simp [mkVec, List.replicate_succ]

theorem Erase_shape (l₁ l₂ : List α) (x : α) (r : Nat) :
    (mkVec (l₁ ++ x :: l₂) r).Erase l₁.length = mkVec (l₁ ++ l₂) (r + 1) := by
  unfold Vector.Erase
  have hcnt : (mkVec (l₁ ++ x :: l₂) r).size - l₁.length - 1 = l₂.length := by
    simp [mkVec_size]
  have hbuf : (mkVec (l₁ ++ x :: l₂) r).data.buffer =
      l₁.map some ++ ((x :: l₂).map some ++ List.replicate r none) := by
    simp [mkVec]
  have hml := moveLeftN_shape l₂ (l₁.map some) (List.replicate r none) x
  simp only [List.length_map] at hml
  rw [hcnt, hbuf, hml]
  have hsz : (mkVec (l₁ ++ x :: l₂) r).size = ((l₁ ++ l₂) ++ [l₂.getLastD x]).length := by
    simp [mkVec_size]
  rw [hsz]
  have hshape : l₁.map some ++ ((l₂ ++ [l₂.getLastD x]).map some ++ List.replicate r none) =
      ((l₁ ++ l₂) ++ [l₂.getLastD x]).map some ++ List.replicate r none := by
    simp [List.append_assoc]
  rw [show (⟨⟨l₁.map some ++ ((l₂ ++ [l₂.getLastD x]).map some ++ List.replicate r none)⟩,
      ((l₁ ++ l₂) ++ [l₂.getLastD x]).length⟩ : Vector α) =
      mkVec ((l₁ ++ l₂) ++ [l₂.getLastD x]) r by
    simp only [mkVec, Vector.mk.injEq, RawMemory.mk.injEq]
    exact ⟨hshape, trivial⟩]
  rw [PopBack_shape]
theorem Emplace_at_end (c : α → Option α) (v : Vector α) (a : α) :
    v.Emplace c v.size a = v.EmplaceBack c a := by
  unfold Vector.Emplace
  rw [if_pos rfl]

theorem Emplace_inplace (l₁ m : List α) (z a : α) (r : Nat) (hr : 0 < r) :
    (mkVec (l₁ ++ (m ++ [z])) r).Emplace idCopy l₁.length a =
      .ok (mkVec (l₁ ++ a :: (m ++ [z])) (r - 1)) := by
  unfold Vector.Emplace
  rw [if_neg (show ¬ l₁.length = (mkVec (l₁ ++ (m ++ [z])) r).size by
    rw [mkVec_size]; simp)]
  rw [if_neg (show ¬ (mkVec (l₁ ++ (m ++ [z])) r).size = (mkVec (l₁ ++ (m ++ [z])) r).Capacity by
    rw [mkVec_size, mkVec_Capacity]; omega)]
  obtain ⟨r', rfl⟩ : ∃ r', r = r' + 1 := ⟨r - 1, by omega⟩
  have hgd : (mkVec (l₁ ++ (m ++ [z])) (r' + 1)).data.buffer.getD
      ((mkVec (l₁ ++ (m ++ [z])) (r' + 1)).size - 1) none = some z := by
    rw [mkVec_size]
    have hb : (mkVec (l₁ ++ (m ++ [z])) (r' + 1)).data.buffer =
        (l₁ ++ m).map some ++ some z :: List.replicate (r' + 1) none := by
      simp [mkVec, List.append_assoc]
    have hi : (l₁ ++ (m ++ [z])).length - 1 = ((l₁ ++ m).map some).length := by simp
    rw [hb, hi, getD_at_len]
  have hset1 : (mkVec (l₁ ++ (m ++ [z])) (r' + 1)).data.buffer.set
      (mkVec (l₁ ++ (m ++ [z])) (r' + 1)).size (some z) =
      l₁.map some ++ ((m ++ [z]).map some ++ (some z :: List.replicate r' none)) := by
    rw [mkVec_size]
    have hb : (mkVec (l₁ ++ (m ++ [z])) (r' + 1)).data.buffer =
        (l₁ ++ (m ++ [z])).map some ++ none :: List.replicate r' none := by
      simp [mkVec, List.replicate_succ]
    have hi : (l₁ ++ (m ++ [z])).length = ((l₁ ++ (m ++ [z])).map some).length := by simp
    rw [hb, hi, set_at_len]
    simp [List.append_assoc]
  rw [hgd, hset1]
  have hcnt : (mkVec (l₁ ++ (m ++ [z])) (r' + 1)).size - l₁.length - 1 = m.length := by
    rw [mkVec_size]; simp
  rw [hcnt]
  have hsr := shiftRightN_shape m (l₁.map some) (some z :: List.replicate r' none) z
  simp only [List.length_map] at hsr
  show Res.ok (⟨⟨(shiftRightN
      (List.map some l₁ ++ (List.map some (m ++ [z]) ++ some z :: List.replicate r' none))
      l₁.length m.length).set l₁.length (some a)⟩,
      (mkVec (l₁ ++ (m ++ [z])) (r' + 1)).size + 1⟩ : Vector α) = _
  rw [hsr]
  have hset2 : (l₁.map some ++ ((m.headD z :: m).map some ++ some z :: List.replicate r' none)).set
      l₁.length (some a) =
      (l₁ ++ a :: (m ++ [z])).map some ++ List.replicate r' none := by
    have := set_at_len (l₁.map some) (some (m.headD z))
      (some a) (m.map some ++ some z :: List.replicate r' none)
    simp only [List.length_map] at this
    simp only [List.map_cons, List.cons_append, List.append_assoc] at this ⊢
    rw [this]
    simp [List.append_assoc]
  rw [hset2]
  have hsz : (mkVec (l₁ ++ (m ++ [z])) (r' + 1)).size + 1 =
      (l₁ ++ a :: (m ++ [z])).length := by
    rw [mkVec_size]; simp; omega
  rw [hsz]
  rfl
theorem Emplace_grow_id (l : List α) (p : Nat) (hp : p < l.length) (a : α) :
    (mkVec l 0).Emplace idCopy p a =
      .ok (mkVec (l.take p ++ a :: l.drop p) (l.length - 1)) := by
  unfold Vector.Emplace
  rw [if_neg (show ¬ p = (mkVec l 0).size by rw [mkVec_size]; omega)]
  rw [if_pos (show (mkVec l 0).size = (mkVec l 0).Capacity by
    rw [mkVec_size, mkVec_Capacity]; omega)]
  have hb0 : ((RawMemory.alloc (if (mkVec l 0).size = 0 then 1 else (mkVec l 0).size * 2) :
      RawMemory α)).buffer.set p (some a) =
      List.replicate p none ++ some a :: List.replicate (l.length * 2 - p - 1) none := by
    rw [mkVec_size, if_neg (by omega)]
    exact set_replicate_mid _ _ _ (by omega)
  rw [hb0, mkVec_live]
  have htk : (l.take p).length = p := List.length_take_of_le (by omega)
  have hpre := copyNAux_ok (l.take p) []
    (List.replicate p none ++ some a :: List.replicate (l.length * 2 - p - 1) none)
    (by simp [htk])
  simp only [List.length_nil, List.nil_append, htk] at hpre
  have hdrop0 : (List.replicate p (none : Option α) ++
      some a :: List.replicate (l.length * 2 - p - 1) none).drop p =
      some a :: List.replicate (l.length * 2 - p - 1) none := by
    have := drop_at_len (List.replicate p (none : Option α))
      (some a :: List.replicate (l.length * 2 - p - 1) none)
    simpa using this
  rw [hdrop0] at hpre
  dsimp only
  simp only [hpre]
  have hsuf := copyNAux_ok (l.drop p) ((l.take p).map some ++ [some a])
    (List.replicate (l.length * 2 - p - 1) none) (by simp; omega)
  simp only [List.length_append, List.length_map, List.length_cons, List.length_nil, htk]
    at hsuf
  have hpp : p + (0 + 1) = p + 1 := by omega
  rw [hpp] at hsuf
  rw [List.append_assoc] at hsuf
  simp only [List.singleton_append] at hsuf
  simp only [hsuf]
  have harith : l.length * 2 - p - 1 - (l.length - p) = l.length - 1 := by omega
  simp only [mkVec, Res.ok.injEq, Vector.mk.injEq, RawMemory.mk.injEq, List.map_append,
    List.map_cons, List.append_assoc, List.singleton_append, List.cons_append,
    List.length_drop, List.drop_replicate, List.length_append, List.length_cons,
    List.length_nil, htk, harith, mkVec_size]
  exact ⟨by simp, by omega⟩

theorem destroy_tail_layout (l' : List α) (r n : Nat) (h : n ≤ l'.length) :
    destroyN (l'.map some ++ List.replicate r none) n (l'.length - n) =
      (l'.take n).map some ++ List.replicate (l'.length - n + r) none := by
  have hdec : l'.map some ++ List.replicate r none =
      (l'.take n).map some ++ (((l'.drop n).map some) ++ List.replicate r none) := by
    rw [← List.append_assoc, ← List.map_append, List.take_append_drop]
  have hn : (l'.take n).length = n := List.length_take_of_le h
  have htl : ((l'.take n).map some).length = n := by rw [List.length_map, hn]
  have hdl : ((l'.drop n).map some).length = l'.length - n := by simp
  have hd := destroyN_shape ((l'.drop n).map some) ((l'.take n).map some)
    (List.replicate r none)
  rw [htl, hdl] at hd
  rw [hdec, hd, ← List.replicate_add]

theorem copyAssign_inv (c : α → Option α) (l g : List α) (r q : Nat) :
    ((mkVec l r).copyAssign c (mkVec g q)).state.Inv := by
  unfold Vector.copyAssign
  by_cases h1 : (mkVec l r).Capacity < (mkVec g q).size
  · rw [if_pos h1]
    unfold Vector.copyCtor
    rw [mkVec_live, mkVec_size]
    cases hc : copyNAux c g 0 (List.replicate g.length none) with
    | none => exact mkVec_Inv l r
    | some buf =>
      obtain ⟨m, hm, hbuf⟩ := copyNAux_ok_any c g [] (List.replicate g.length none) buf
        (by simp) (by simpa using hc)
      show Vector.Inv ⟨⟨buf⟩, g.length⟩
      refine ⟨m, 0, ?_, hm⟩
      rw [hbuf]
      simp
  · rw [if_neg h1]
    rw [mkVec_Capacity, mkVec_size] at h1
    rw [mkVec_live]
    rw [show (mkVec l r).data.buffer = l.map some ++ List.replicate r none from rfl]
    rw [mkVec_size, mkVec_size]
    dsimp only
    have htkcc : (g.take (if g.length < l.length then g.length else l.length)).length ≤
        l.length := by
      have := List.length_take (if g.length < l.length then g.length else l.length) g
      by_cases hgl : g.length < l.length
      · rw [if_pos hgl] at this ⊢; omega
      · rw [if_neg hgl] at this ⊢; omega
    obtain ⟨l', hlen', hstate⟩ := stdCopyAux_layout c
      (g.take (if g.length < l.length then g.length else l.length)) 0 l
      (List.replicate r none) (by omega)
    cases hstd : stdCopyAux c (g.take (if g.length < l.length then g.length else l.length)) 0
        (l.map some ++ List.replicate r none) with
    | threw buf =>
      have hbuf : buf = l'.map some ++ List.replicate r none := by
        rw [hstd] at hstate; exact hstate
      show Vector.Inv ⟨⟨buf⟩, l.length⟩
      rw [hbuf]
      exact ⟨l', r, rfl, hlen'⟩
    | ok buf1 =>
      dsimp only
      have hbuf1 : buf1 = l'.map some ++ List.replicate r none := by
        rw [hstd] at hstate; exact hstate
      by_cases h2 : g.length < l.length
      · rw [if_pos h2]
        have hdt := destroy_tail_layout l' r g.length (by omega)
        rw [hlen'] at hdt
        show Vector.Inv ⟨⟨destroyN buf1 g.length (l.length - g.length)⟩, g.length⟩
        rw [hbuf1, hdt]
        refine ⟨l'.take g.length, l.length - g.length + r, rfl, ?_⟩
        rw [List.length_take_of_le (by omega)]
      · rw [if_neg h2]
        by_cases h3 : l.length < g.length
        · rw [if_pos h3]
          cases hc2 : copyNAux c (g.drop l.length) l.length buf1 with
          | none =>
            show Vector.Inv ⟨⟨buf1⟩, l.length⟩
            rw [hbuf1]
            exact ⟨l', r, rfl, hlen'⟩
          | some buf2 =>
            have hc3 : copyNAux c (g.drop l.length) ((l'.map some).length)
                (l'.map some ++ List.replicate r none) = some buf2 := by
              rw [List.length_map, hlen', ← hbuf1]
              exact hc2
            have hblen : (g.drop l.length).length ≤
                (List.replicate r (none : Option α)).length := by
              simp only [List.length_drop, List.length_replicate]
              omega
            obtain ⟨m, hm, hbuf2⟩ := copyNAux_ok_any c (g.drop l.length) (l'.map some)
              (List.replicate r none) buf2 hblen hc3
            show Vector.Inv ⟨⟨buf2⟩, g.length⟩
            rw [hbuf2]
            refine ⟨l' ++ m, r - (g.drop l.length).length, ?_, ?_⟩
            · simp [List.drop_replicate, List.append_assoc]
            · show (l' ++ m).length = g.length
              simp only [List.length_append, List.length_drop] at hm ⊢
              omega
        · rw [if_neg h3]
          show Vector.Inv ⟨⟨buf1⟩, g.length⟩
          rw [hbuf1]
          refine ⟨l', r, rfl, ?_⟩
          show l'.length = g.length
          omega
theorem exists_concat_of_ne_nil {l : List α} (h : l ≠ []) : ∃ m z, l = m ++ [z] := by
  rcases List.eq_nil_or_concat l with h0 | ⟨m, z, hmz⟩
  · exact absurd h0 h
  · exact ⟨m, z, by rw [hmz, List.concat_eq_append]⟩

theorem getD_replicate_none (r i : Nat) :
    (List.replicate r (none : Option α)).getD i none = none := by
  induction r generalizing i with
  | zero => rfl
  | succ k ih =>
    cases i with
    | zero => rfl
    | succ j => exact ih j

theorem isSome_getD_layout (l : List α) (r i : Nat) :
    ((l.map some ++ List.replicate r none).getD i none).isSome ↔ i < l.length := by
  induction l generalizing i with
  | nil =>
    simp only [List.map_nil, List.nil_append, getD_replicate_none]
    simp
  | cons x xs ih =>
    cases i with
    | zero => simp
    | succ j =>
      show ((xs.map some ++ List.replicate r none).getD j none).isSome ↔ j + 1 < xs.length + 1
      rw [ih j]
      omega

/-- Full functional specification of `Emplace` (and hence `Insert`) with
infallible element copies: it succeeds and inserts the value at position `p`,
keeping all other elements in order. -/
theorem Emplace_id_spec (v : Vector α) (p : Nat) (a : α) (hv : v.Inv) (hp : p ≤ v.size) :
    ∃ w, v.Emplace idCopy p a = .ok w ∧ w.Inv ∧ w.size = v.size + 1 ∧
      w.live = v.live.take p ++ a :: v.live.drop p := by
  obtain ⟨l, r, rfl⟩ := Vector.inv_elim hv
  rw [mkVec_size] at hp ⊢
  rw [mkVec_live]
  by_cases hps : p = l.length
  · rw [hps]
    have he : (mkVec l r).Emplace idCopy l.length a = (mkVec l r).EmplaceBack idCopy a :=
      Emplace_at_end idCopy (mkVec l r) a
    rw [he]
    cases r with
    | zero =>
      rw [EmplaceBack_id_grow l a]
      exact ⟨_, rfl, mkVec_Inv _ _, by simp [mkVec_size], by rw [mkVec_live]; simp⟩
    | succ r' =>
      rw [EmplaceBack_id_room l (r' + 1) a (by omega)]
      exact ⟨_, rfl, mkVec_Inv _ _, by simp [mkVec_size], by rw [mkVec_live]; simp⟩
  · have hplt : p < l.length := by omega
    cases r with
    | zero =>
      rw [Emplace_grow_id l p hplt a]
      refine ⟨_, rfl, mkVec_Inv _ _, ?_, by rw [mkVec_live]⟩
      rw [mkVec_size]
      have := List.length_take_of_le (Nat.le_of_lt hplt)
      simp
      omega
    | succ r' =>
      have hdr : l.drop p ≠ [] := by
        intro hcon
        have := List.length_drop p l
        rw [hcon] at this
        simp at this
        omega
      obtain ⟨m, z, hmz⟩ := exists_concat_of_ne_nil hdr
      have hl : l = l.take p ++ (m ++ [z]) := by
        rw [← hmz, List.take_append_drop]
      have htkp : (l.take p).length = p := List.length_take_of_le (Nat.le_of_lt hplt)
      have hem := Emplace_inplace (l.take p) m z a (r' + 1) (by omega)
      rw [htkp] at hem
      rw [show mkVec l (r' + 1) = mkVec (l.take p ++ (m ++ [z])) (r' + 1) by rw [← hl]]
      rw [hem]
      refine ⟨_, rfl, mkVec_Inv _ _, ?_, ?_⟩
      · rw [mkVec_size]
        have hlen2 : l.length = (l.take p ++ (m ++ [z])).length := by rw [← hl]
        simp at hlen2 ⊢
        omega
      · rw [mkVec_live, hmz]

/-- Full functional specification of `Erase`: removes exactly the element at
position `p` and shifts later elements left, preserving order. -/
theorem Erase_spec (v : Vector α) (p : Nat) (hv : v.Inv) (hp : p < v.size) :
    (v.Erase p).Inv ∧ (v.Erase p).size = v.size - 1 ∧
      (v.Erase p).live = v.live.take p ++ v.live.drop (p + 1) := by
  obtain ⟨l, r, rfl⟩ := Vector.inv_elim hv
  rw [mkVec_size] at hp ⊢
  rw [mkVec_live]
  have hdec : l = l.take p ++ l[p] :: l.drop (p + 1) := by
    conv_lhs => rw [← List.take_append_drop p l]
    rw [List.drop_eq_getElem_cons hp]
  have htkp : (l.take p).length = p := List.length_take_of_le (Nat.le_of_lt hp)
  have her := Erase_shape (l.take p) (l.drop (p + 1)) (l.get ⟨p, hp⟩) r
  rw [htkp] at her
  rw [show mkVec l r = mkVec (l.take p ++ l[p] :: l.drop (p + 1)) r by rw [← hdec]]
  rw [show (l.get ⟨p, hp⟩) = l[p] from rfl] at her
  rw [her]
  refine ⟨mkVec_Inv _ _, ?_, by rw [mkVec_live]⟩
  rw [mkVec_size]
  have hlen : l.length = (l.take p ++ l[p] :: l.drop (p + 1)).length := by rw [← hdec]
  simp at hlen ⊢
  omega

/-- Full functional specification of `Resize` with infallible element copies. -/
theorem Resize_id_spec (v : Vector α) (n : Nat) (d : α) (hv : v.Inv) :
    ∃ w, v.Resize idCopy d n = .ok w ∧ w.Inv ∧ w.size = n ∧
      w.live = if n ≤ v.size then v.live.take n
        else v.live ++ List.replicate (n - v.size) d := by
  obtain ⟨l, r, rfl⟩ := Vector.inv_elim hv
  rw [mkVec_size, mkVec_live]
  rcases Nat.lt_trichotomy n l.length with hlt | heq | hgt
  · rw [Resize_id_shrink l r n d hlt, if_pos (by omega)]
    exact ⟨_, rfl, mkVec_Inv _ _, by
      rw [mkVec_size, List.length_take_of_le (by omega)], by rw [mkVec_live]⟩
  · subst heq
    rw [show (mkVec l r).Resize idCopy d l.length =
      (mkVec l r).Resize idCopy d (mkVec l r).size from rfl]
    rw [Resize_id_eq (mkVec l r) d, if_pos (by omega)]
    exact ⟨_, rfl, mkVec_Inv _ _, by rw [mkVec_size], by rw [mkVec_live]; simp⟩
  · rw [Resize_id_grow l r n d hgt, if_neg (show ¬ n ≤ l.length from by omega)]
    refine ⟨_, rfl, mkVec_Inv _ _, ?_, by rw [mkVec_live]⟩
    rw [mkVec_size]
    simp
    omega
theorem EmplaceBack_id_ok (l : List α) (r : Nat) (a : α) :
    ∃ w, (mkVec l r).EmplaceBack idCopy a = .ok w := by
  cases r with
  | zero => exact ⟨_, EmplaceBack_id_grow l a⟩
  | succ k => exact ⟨_, EmplaceBack_id_room l (k + 1) a (by omega)⟩

/-- Capacity evolution of a single append: growth to `max 1 (2 * capacity)`
exactly when `size = capacity`, otherwise unchanged; capacity never
decreases; size increments. -/
theorem EmplaceBack_cap_step {c : α → Option α} {v w : Vector α} {a : α}
    (hv : v.Inv) (h : v.EmplaceBack c a = .ok w) :
    w.Capacity = (if v.size = v.Capacity then max 1 (2 * v.Capacity) else v.Capacity) ∧
      v.Capacity ≤ w.Capacity ∧ w.size = v.size + 1 := by
  obtain ⟨l, r, rfl⟩ := Vector.inv_elim hv
  obtain ⟨m, r', hm, rfl, hcap⟩ := EmplaceBack_ok_shape h
  simp only [mkVec_size, mkVec_Capacity] at hcap ⊢
  by_cases hr : r = 0
  · subst hr
    rw [if_pos (by omega)]
    rw [if_pos rfl] at hcap
    by_cases h0 : l.length = 0
    · rw [if_pos h0] at hcap
      refine ⟨by omega, by omega, by omega⟩
    · rw [if_neg h0] at hcap
      refine ⟨by rw [Nat.max_eq_right (by omega)]; omega, by omega, by omega⟩
  · rw [if_neg (by omega)]
    rw [if_neg hr] at hcap
    refine ⟨by omega, by omega, by omega⟩

/-- A sequence of appends (`PushBack`/`EmplaceBack` with infallible element
operations), observing the state after each call. -/
def runAppend (v : Vector α) : List α → Vector α
  | [] => v
  | a :: rest => runAppend ((v.EmplaceBack idCopy a).state) rest

theorem runAppend_layout (xs : List α) : ∀ (l : List α) (r : Nat),
    ∃ r2, runAppend (mkVec l r) xs = mkVec (l ++ xs) r2 := by
  induction xs with
  | nil => intro l r; exact ⟨r, by simp [runAppend]⟩
  | cons a rest ih =>
    intro l r
    show ∃ r2, runAppend ((mkVec l r).EmplaceBack idCopy a).state rest = _
    cases r with
    | zero =>
      rw [EmplaceBack_id_grow l a]
      obtain ⟨r2, hr2⟩ := ih (l ++ [a]) ((if l.length = 0 then 1 else l.length * 2) -
        l.length - 1)
      refine ⟨r2, ?_⟩
      show runAppend (mkVec (l ++ [a]) _) rest = _
      rw [hr2, List.append_assoc]
      rfl
    | succ k =>
      rw [EmplaceBack_id_room l (k + 1) a (by omega)]
      obtain ⟨r2, hr2⟩ := ih (l ++ [a]) k
      refine ⟨r2, ?_⟩
      show runAppend (mkVec (l ++ [a]) (k + 1 - 1)) rest = _
      rw [show k + 1 - 1 = k from rfl, hr2, List.append_assoc]
      rfl

theorem runAppend_cap_mono (xs : List α) : ∀ (l : List α) (r : Nat),
    (mkVec l r).Capacity ≤ (runAppend (mkVec l r) xs).Capacity := by
  induction xs with
  | nil => intro l r; exact Nat.le_refl _
  | cons a rest ih =>
    intro l r
    show (mkVec l r).Capacity ≤ (runAppend ((mkVec l r).EmplaceBack idCopy a).state rest).Capacity
    cases r with
    | zero =>
      rw [EmplaceBack_id_grow l a]
      have step := ih (l ++ [a]) ((if l.length = 0 then 1 else l.length * 2) - l.length - 1)
      have hcaps : (mkVec l 0).Capacity ≤
          (mkVec (l ++ [a]) ((if l.length = 0 then 1 else l.length * 2) -
            l.length - 1)).Capacity := by
        rw [mkVec_Capacity, mkVec_Capacity]
        by_cases h0 : l.length = 0
        · rw [if_pos h0]; omega
        · rw [if_neg h0]; simp; omega
      exact le_trans hcaps step
    | succ k =>
      rw [EmplaceBack_id_room l (k + 1) a (by omega)]
      have step := ih (l ++ [a]) k
      have hcaps : (mkVec l (k + 1)).Capacity ≤ (mkVec (l ++ [a]) (k + 1 - 1)).Capacity := by
        rw [mkVec_Capacity, mkVec_Capacity]
        simp
        omega
      exact le_trans hcaps (by exact step)

theorem runAppend_append (xs ys : List α) : ∀ (v : Vector α),
    runAppend v (xs ++ ys) = runAppend (runAppend v xs) ys := by
  induction xs with
  | nil => intro v; rfl
  | cons a rest ih => intro v; exact ih _

theorem copyCtor_inv {c : α → Option α} {other w : Vector α} (ho : other.Inv)
    (h : Vector.copyCtor c other = some w) : w.Inv := by
  obtain ⟨g, q, rfl⟩ := Vector.inv_elim ho
  unfold Vector.copyCtor at h
  rw [mkVec_live, mkVec_size] at h
  cases hc : copyNAux c g 0 (List.replicate g.length none) with
  | none => rw [hc] at h; cases h
  | some buf =>
    rw [hc] at h
    have hw : w = ⟨⟨buf⟩, g.length⟩ := by
      cases h; rfl
    obtain ⟨m, hm, hbuf⟩ := copyNAux_ok_any c g [] (List.replicate g.length none) buf
      (by simp) (by simpa using hc)
    rw [hw]
    refine ⟨m, 0, ?_, hm⟩
    rw [hbuf]
    simp
theorem Reserve_state_inv {c : α → Option α} {v : Vector α} {n : Nat} (hv : v.Inv) :
    ((v.Reserve c n).state).Inv := by
  obtain ⟨l, r, rfl⟩ := Vector.inv_elim hv
  cases hres : (mkVec l r).Reserve c n with
  | ok w =>
    obtain ⟨m, r', _, _, rfl⟩ := Reserve_ok_any hres
    exact mkVec_Inv m r'
  | threw w =>
    rw [show w = mkVec l r from Reserve_threw hres]
    exact mkVec_Inv l r

theorem Resize_state_inv {c : α → Option α} {v : Vector α} {d : α} {n : Nat} (hv : v.Inv) :
    ((v.Resize c d n).state).Inv := by
  obtain ⟨l, r, rfl⟩ := Vector.inv_elim hv
  cases hres : (mkVec l r).Resize c d n with
  | ok w =>
    exact (Resize_ok_inv hres).1
  | threw w =>
    rw [show w = mkVec l r from Resize_threw hres]
    exact mkVec_Inv l r

theorem EmplaceBack_state_inv {c : α → Option α} {v : Vector α} {a : α} (hv : v.Inv) :
    ((v.EmplaceBack c a).state).Inv := by
  obtain ⟨l, r, rfl⟩ := Vector.inv_elim hv
  cases hres : (mkVec l r).EmplaceBack c a with
  | ok w =>
    obtain ⟨m, r', _, rfl, _⟩ := EmplaceBack_ok_shape hres
    exact mkVec_Inv m r'
  | threw w =>
    rw [show w = mkVec l r from EmplaceBack_threw hres]
    exact mkVec_Inv l r

theorem PopBack_inv {v : Vector α} (hv : v.Inv) (hs : 0 < v.size) : v.PopBack.Inv := by
  obtain ⟨l, r, rfl⟩ := Vector.inv_elim hv
  rw [mkVec_size] at hs
  obtain ⟨m, z, rfl⟩ := exists_concat_of_ne_nil (show l ≠ [] by
    intro hcon; rw [hcon] at hs; simp at hs)
  rw [PopBack_shape]
  exact mkVec_Inv m (r + 1)

theorem Emplace_state_inv {v : Vector α} {p : Nat} {a : α} (hv : v.Inv) (hp : p ≤ v.size) :
    ((v.Emplace idCopy p a).state).Inv := by
  obtain ⟨w, hw, hinv, _, _⟩ := Emplace_id_spec v p a hv hp
  rw [hw]
  exact hinv

theorem Erase_inv {v : Vector α} {p : Nat} (hv : v.Inv) (hp : p < v.size) :
    (v.Erase p).Inv :=
  (Erase_spec v p hv hp).1

theorem assignOp_state_inv {c : α → Option α} {self : Bool} {v rhs : Vector α}
    (hv : v.Inv) (hrhs : rhs.Inv) : ((v.assignOp c self rhs).state).Inv := by
  unfold Vector.assignOp
  cases self with
  | true => exact hv
  | false =>
    obtain ⟨l, r, rfl⟩ := Vector.inv_elim hv
    obtain ⟨g, q, rfl⟩ := Vector.inv_elim hrhs
    exact copyAssign_inv c l g r q

/-! ### Claim theorems -/

/-- Claim C1 (code bug): in `Emplace` at an interior position with
`size == capacity`, when a copy fails while relocating the prefix into the
new allocation, the `catch` block unwinds the constructed slots but does not
rethrow: the exception is swallowed, the old elements are destroyed, the
partially-empty new allocation is swapped in and `size` is incremented.
Concretely, for the vector `[5, 7]` at capacity 2, `Emplace` at position 1
of the value 9 with a copy oracle that throws on 5 RETURNS NORMALLY with
size 3, slot 0 unconstructed, and the original elements lost — instead of
reporting the failure with the vector unchanged. -/
theorem claim_C1_growth_emplace_swallows_failure :
    Vector.Emplace (fun x => if x = 5 then none else some x)
        (⟨⟨[some 5, some 7]⟩, 2⟩ : Vector Nat) 1 9 =
      Res.ok ⟨⟨[none, none, some 7, none]⟩, 3⟩ ∧
    ((⟨⟨[none, none, some 7, none]⟩, 3⟩ : Vector Nat).data.buffer.getD 0 none) = none ∧
    (⟨⟨[none, none, some 7, none]⟩, 3⟩ : Vector Nat).live ≠
      (⟨⟨[some 5, some 7]⟩, 2⟩ : Vector Nat).live := by
  refine ⟨by decide, by decide, by decide⟩

/-- Claim C2: when the element type is relocated by copy and a copy fails
mid-relocation during a growth triggered by `Reserve`, `PushBack` or
`EmplaceBack`, the failure propagates to the caller (`Res.threw`) and the
vector's state — size, capacity, elements, order — is exactly the original
one (strong guarantee). -/
theorem claim_C2_growth_strong_guarantee {α : Type} :
    (∀ (c : α → Option α) (v w : Vector α) (n : Nat), v.Reserve c n = .threw w → w = v) ∧
    (∀ (c : α → Option α) (v w : Vector α) (a : α), v.EmplaceBack c a = .threw w → w = v) ∧
    (∀ (c : α → Option α) (v w : Vector α) (a : α), v.PushBack c a = .threw w → w = v) ∧
    (∀ (c : α → Option α) (l : List α) (r n : Nat), l.length + r < n →
      (∃ x ∈ l, c x = none) → (mkVec l r).Reserve c n = .threw (mkVec l r)) ∧
    (∀ (c : α → Option α) (l : List α) (a : α), (∃ x ∈ l, c x = none) →
      (mkVec l 0).EmplaceBack c a = .threw (mkVec l 0)) ∧
    (∀ (c : α → Option α) (l : List α) (a : α), (∃ x ∈ l, c x = none) →
      (mkVec l 0).PushBack c a = .threw (mkVec l 0)) := by
  refine ⟨fun c v w n h => Reserve_threw h,
    fun c v w a h => EmplaceBack_threw h,
    fun c v w a h => EmplaceBack_threw h,
    fun c l r n hgt hfail => ?_,
    fun c l a hfail => EmplaceBack_threw_of_fail l a hfail,
    fun c l a hfail => EmplaceBack_threw_of_fail l a hfail⟩
  exact Reserve_threw_of_fail (mkVec l r) n (by rw [mkVec_Capacity]; omega)
    (by rw [mkVec_live]; exact hfail)

theorem claim_C2_witness :
    (mkVec [5] 0).EmplaceBack (fun x => if x = 5 then none else some x) 7 =
      Res.threw (mkVec [5] 0) ∧
    (mkVec [5] 0).Reserve (fun x => if x = 5 then none else some x) 4 =
      Res.threw (mkVec [5] 0) := by
  have h := claim_C2_growth_strong_guarantee (α := Nat)
  refine ⟨h.2.2.2.2.1 _ [5] 7 ⟨5, by decide, by decide⟩,
    h.2.2.2.1 _ [5] 0 4 (by decide) ⟨5, by decide, by decide⟩⟩

/-- Claim C3 counterexample: the claimed invariant does not hold at every
observable point of every operation.  `Emplace` at an interior position with
`size == capacity` and a copy that throws (on the value 2) returns normally
with `size = 4` while slots 0, 1, 2 of the 6-slot buffer are unconstructed:
the constructed slots are not exactly `[0, size)`. -/
theorem claim_C3_counterexample :
    Vector.Emplace (fun x => if x = 2 then none else some x)
        (⟨⟨[some 1, some 2, some 3]⟩, 3⟩ : Vector Nat) 2 9 =
      Res.ok ⟨⟨[none, none, none, some 3, none, none]⟩, 4⟩ ∧
    ¬ ((⟨⟨[none, none, none, some 3, none, none]⟩, 4⟩ : Vector Nat).size ≤
        (⟨⟨[none, none, none, some 3, none, none]⟩, 4⟩ : Vector Nat).Capacity ∧
      ∀ i, i < (⟨⟨[none, none, none, some 3, none, none]⟩, 4⟩ : Vector Nat).Capacity →
        ((((⟨⟨[none, none, none, some 3, none, none]⟩, 4⟩ : Vector Nat)).data.buffer.getD
            i none).isSome ↔
          i < (⟨⟨[none, none, none, some 3, none, none]⟩, 4⟩ : Vector Nat).size)) := by
  refine ⟨by decide, by decide⟩

/-- Claim C3 (amended): the invariant `0 ≤ size ≤ capacity`, with exactly the
slots `[0, size)` constructed and `[size, capacity)` raw, holds at every
observable point (normal returns and states left after a propagated
exception) of every public operation — construction, reserve, resize,
append, emplace, pop, insert, erase, assignment, swap — EXCEPT the
interior-position `Emplace`/`Insert` growth path when an element copy fails
(the swallowed-exception bug of C1); the positional `Emplace`/`Insert`
conjuncts below therefore assume infallible element copies (`idCopy`),
while every other conjunct allows an arbitrary failing copy oracle. -/
theorem claim_C3_invariant_preservation {α : Type} (d : α) :
    (∀ v : Vector α, v.Inv →
      v.size ≤ v.Capacity ∧
      ∀ i, i < v.Capacity → ((v.data.buffer.getD i none).isSome ↔ i < v.size)) ∧
    (Vector.defaultCtor : Vector α).Inv ∧
    (∀ n : Nat, (Vector.sizedCtor n d).Inv) ∧
    (∀ (c : α → Option α) (other w : Vector α), other.Inv →
      Vector.copyCtor c other = some w → w.Inv) ∧
    (∀ v : Vector α, v.Inv → (Vector.moveCtor v).1.Inv ∧ (Vector.moveCtor v).2.Inv) ∧
    (∀ (c : α → Option α) (v : Vector α) (n : Nat), v.Inv → ((v.Reserve c n).state).Inv) ∧
    (∀ (c : α → Option α) (v : Vector α) (n : Nat), v.Inv → ((v.Resize c d n).state).Inv) ∧
    (∀ (c : α → Option α) (v : Vector α) (a : α), v.Inv → ((v.EmplaceBack c a).state).Inv) ∧
    (∀ (c : α → Option α) (v : Vector α) (a : α), v.Inv → ((v.PushBack c a).state).Inv) ∧
    (∀ v : Vector α, v.Inv → 0 < v.size → v.PopBack.Inv) ∧
    (∀ (v : Vector α) (p : Nat) (a : α), v.Inv → p ≤ v.size →
      ((v.Emplace idCopy p a).state).Inv) ∧
    (∀ (v : Vector α) (p : Nat) (a : α), v.Inv → p ≤ v.size →
      ((v.Insert idCopy p a).state).Inv) ∧
    (∀ (v : Vector α) (p : Nat), v.Inv → p < v.size → (v.Erase p).Inv) ∧
    (∀ (c : α → Option α) (self : Bool) (v rhs : Vector α), v.Inv → rhs.Inv →
      ((v.assignOp c self rhs).state).Inv) ∧
    (∀ a b : Vector α, a.Inv → b.Inv → (a.SwapOp b).1.Inv ∧ (a.SwapOp b).2.Inv) ∧
    (∀ a b : Vector α, a.Inv → b.Inv → (a.moveAssign b).1.Inv ∧ (a.moveAssign b).2.Inv) := by
  refine ⟨?_, ⟨[], 0, rfl, rfl⟩, ?_, ?_, ?_, ?_, ?_, ?_, ?_, ?_, ?_, ?_, ?_, ?_, ?_, ?_⟩
  · intro v hv
    obtain ⟨l, r, rfl⟩ := Vector.inv_elim hv
    refine ⟨by rw [mkVec_size, mkVec_Capacity]; omega, ?_⟩
    intro i _
    rw [mkVec_size]
    exact isSome_getD_layout l r i
  · intro n
    exact ⟨List.replicate n d, 0, by simp [Vector.sizedCtor, List.map_replicate],
      by simp [Vector.sizedCtor]⟩
  · intro c other w ho h
    exact copyCtor_inv ho h
  · intro v hv
    exact ⟨hv, ⟨[], 0, rfl, rfl⟩⟩
  · intro c v n hv
    exact Reserve_state_inv hv
  · intro c v n hv
    exact Resize_state_inv hv
  · intro c v a hv
    exact EmplaceBack_state_inv hv
  · intro c v a hv
    exact EmplaceBack_state_inv hv
  · intro v hv hs
    exact PopBack_inv hv hs
  · intro v p a hv hp
    exact Emplace_state_inv hv hp
  · intro v p a hv hp
    exact Emplace_state_inv hv hp
  · intro v p hv hp
    exact Erase_inv hv hp
  · intro c self v rhs hv hrhs
    exact assignOp_state_inv hv hrhs
  · intro a b ha hb
    exact ⟨hb, ha⟩
  · intro a b ha hb
    exact ⟨hb, ha⟩

theorem claim_C3_witness :
    ((⟨⟨[some 1, none]⟩, 1⟩ : Vector Nat).PopBack).Inv ∧
    (((⟨⟨[some 1, none]⟩, 1⟩ : Vector Nat).Emplace idCopy 0 9).state).Inv := by
  have h := claim_C3_invariant_preservation (α := Nat) 0
  exact ⟨h.2.2.2.2.2.2.2.2.2.1 _ ⟨[1], 1, rfl, rfl⟩ (by decide),
    h.2.2.2.2.2.2.2.2.2.2.1 _ 0 9 ⟨[1], 1, rfl, rfl⟩ (by decide)⟩

/-- Claim C4: `Insert`/`Emplace` of a value `a` at any position `p ≤ size`
(with allocation and element operations succeeding, i.e. the infallible
oracle `idCopy`) succeeds and yields the sequence
`[a0..a(p-1), a, ap..a(n-1)]` with size `n + 1`, preserving the relative
order of the pre-existing elements; the statement covers the append, growth
and in-place shifting branches, and `Insert` delegates to `Emplace`. -/
theorem claim_C4_insert_preserves_order {α : Type} :
    ∀ (v : Vector α) (p : Nat) (a : α), v.Inv → p ≤ v.size →
      v.Insert idCopy p a = v.Emplace idCopy p a ∧
      ∃ w, v.Emplace idCopy p a = .ok w ∧ w.size = v.size + 1 ∧
        w.live = v.live.take p ++ a :: v.live.drop p ∧ w.Inv := by
  intro v p a hv hp
  obtain ⟨w, h1, h2, h3, h4⟩ := Emplace_id_spec v p a hv hp
  exact ⟨rfl, w, h1, h3, h4, h2⟩

theorem claim_C4_witness :
    (⟨⟨[some 1, some 2, some 3, none]⟩, 3⟩ : Vector Nat).Insert idCopy 1 99 =
      (⟨⟨[some 1, some 2, some 3, none]⟩, 3⟩ : Vector Nat).Emplace idCopy 1 99 ∧
    ∃ w, (⟨⟨[some 1, some 2, some 3, none]⟩, 3⟩ : Vector Nat).Emplace idCopy 1 99 = .ok w ∧
      w.size = (⟨⟨[some 1, some 2, some 3, none]⟩, 3⟩ : Vector Nat).size + 1 ∧
      w.live = (⟨⟨[some 1, some 2, some 3, none]⟩, 3⟩ : Vector Nat).live.take 1 ++
        99 :: (⟨⟨[some 1, some 2, some 3, none]⟩, 3⟩ : Vector Nat).live.drop 1 ∧
      w.Inv :=
  claim_C4_insert_preserves_order _ 1 99 ⟨[1, 2, 3], 1, rfl, rfl⟩ (by decide)

/-- Claim C5: `Erase` at any position `p < size` yields
`[a0..a(p-1), a(p+1)..a(n-1)]` with size `n - 1`: exactly the element at `p`
is removed and the relative order of the remaining elements is preserved. -/
theorem claim_C5_erase_removes_exactly_one {α : Type} :
    ∀ (v : Vector α) (p : Nat), v.Inv → p < v.size →
      (v.Erase p).size = v.size - 1 ∧
      (v.Erase p).live = v.live.take p ++ v.live.drop (p + 1) ∧
      (v.Erase p).Inv := by
  intro v p hv hp
  obtain ⟨h1, h2, h3⟩ := Erase_spec v p hv hp
  exact ⟨h2, h3, h1⟩

theorem claim_C5_witness :
    ((⟨⟨[some 1, some 2, some 3]⟩, 3⟩ : Vector Nat).Erase 0).size =
      (⟨⟨[some 1, some 2, some 3]⟩, 3⟩ : Vector Nat).size - 1 ∧
    ((⟨⟨[some 1, some 2, some 3]⟩, 3⟩ : Vector Nat).Erase 0).live =
      (⟨⟨[some 1, some 2, some 3]⟩, 3⟩ : Vector Nat).live.take 0 ++
        (⟨⟨[some 1, some 2, some 3]⟩, 3⟩ : Vector Nat).live.drop 1 ∧
    ((⟨⟨[some 1, some 2, some 3]⟩, 3⟩ : Vector Nat).Erase 0).Inv :=
  claim_C5_erase_removes_exactly_one _ 0 ⟨[1, 2, 3], 0, rfl, rfl⟩ (by decide)

/-- Claim C6: starting from a default-constructed vector, `n` successful
appends give size `n`; one append grows capacity to `max 1 (2 * capacity)`
exactly when `size = capacity` and leaves it unchanged otherwise, so
capacity follows the doubling progression `0 → 1 → 2 → 4 → …` and never
shrinks (capacity across any run of appends is monotone). -/
theorem claim_C6_append_size_and_doubling {α : Type} :
    (∀ xs : List α, (runAppend Vector.defaultCtor xs).size = xs.length) ∧
    (∀ (c : α → Option α) (v w : Vector α) (a : α), v.Inv → v.EmplaceBack c a = .ok w →
      w.Capacity = (if v.size = v.Capacity then max 1 (2 * v.Capacity) else v.Capacity) ∧
        v.Capacity ≤ w.Capacity ∧ w.size = v.size + 1) ∧
    (∀ xs ys : List α, (runAppend (Vector.defaultCtor : Vector α) xs).Capacity ≤
      (runAppend (Vector.defaultCtor : Vector α) (xs ++ ys)).Capacity) := by
  refine ⟨?_, ?_, ?_⟩
  · intro xs
    obtain ⟨r2, h⟩ := runAppend_layout xs [] 0
    have h2 : runAppend (Vector.defaultCtor : Vector α) xs = mkVec ([] ++ xs) r2 := h
    rw [h2, mkVec_size]
    simp
  · intro c v w a hv h
    exact EmplaceBack_cap_step hv h
  · intro xs ys
    have h2 : runAppend (Vector.defaultCtor : Vector α) (xs ++ ys) =
        runAppend (runAppend (Vector.defaultCtor : Vector α) xs) ys :=
      runAppend_append xs ys _
    rw [h2]
    obtain ⟨r2, h⟩ := runAppend_layout xs [] 0
    have h3 : runAppend (Vector.defaultCtor : Vector α) xs = mkVec ([] ++ xs) r2 := h
    rw [h3]
    exact runAppend_cap_mono ys ([] ++ xs) r2

theorem claim_C6_witness :
    ((⟨⟨[some 1, some 2]⟩, 2⟩ : Vector Nat).EmplaceBack idCopy 3 =
        Res.ok ⟨⟨[some 1, some 2, some 3, none]⟩, 3⟩) ∧
    (⟨⟨[some 1, some 2, some 3, none]⟩, 3⟩ : Vector Nat).Capacity =
      (if (⟨⟨[some 1, some 2]⟩, 2⟩ : Vector Nat).size =
          (⟨⟨[some 1, some 2]⟩, 2⟩ : Vector Nat).Capacity then
        max 1 (2 * (⟨⟨[some 1, some 2]⟩, 2⟩ : Vector Nat).Capacity)
      else (⟨⟨[some 1, some 2]⟩, 2⟩ : Vector Nat).Capacity) := by
  have h := (claim_C6_append_size_and_doubling (α := Nat)).2.1 idCopy
    ⟨⟨[some 1, some 2]⟩, 2⟩ ⟨⟨[some 1, some 2, some 3, none]⟩, 3⟩ 3
    ⟨[1, 2], 0, rfl, rfl⟩ (by decide)
  exact ⟨by decide, h.1⟩

/-- Claim C7: `Resize(n)` (with infallible element operations and `d` the
default-constructed value) succeeds and sets size to `n`; when shrinking it
keeps exactly the first `n` elements in order (destroying the trailing
ones), when growing it keeps all old elements and default-constructs the
new slots `[size, n)`. -/
theorem claim_C7_resize_spec {α : Type} :
    ∀ (v : Vector α) (n : Nat) (d : α), v.Inv →
      ∃ w, v.Resize idCopy d n = .ok w ∧ w.size = n ∧
        w.live = (if n ≤ v.size then v.live.take n
          else v.live ++ List.replicate (n - v.size) d) ∧ w.Inv := by
  intro v n d hv
  obtain ⟨w, h1, h2, h3, h4⟩ := Resize_id_spec v n d hv
  exact ⟨w, h1, h3, h4, h2⟩

theorem claim_C7_witness :
    ∃ w, (⟨⟨[some 1, some 2, some 3]⟩, 3⟩ : Vector Nat).Resize idCopy 0 1 = .ok w ∧
      w.size = 1 ∧
      w.live = (if 1 ≤ (⟨⟨[some 1, some 2, some 3]⟩, 3⟩ : Vector Nat).size then
        (⟨⟨[some 1, some 2, some 3]⟩, 3⟩ : Vector Nat).live.take 1
      else (⟨⟨[some 1, some 2, some 3]⟩, 3⟩ : Vector Nat).live ++
        List.replicate (1 - (⟨⟨[some 1, some 2, some 3]⟩, 3⟩ : Vector Nat).size) 0) ∧
      w.Inv :=
  claim_C7_resize_spec _ 1 0 ⟨[1, 2, 3], 0, rfl, rfl⟩

/-- Claim C8 counterexample: `RawMemory` move ASSIGNMENT does not leave the
moved-from source with capacity 0 — it swaps, so the source receives the
destination's previous allocation: assigning a 2-slot allocation over a
1-slot one leaves the source with capacity 1. -/
theorem claim_C8_counterexample :
    ((RawMemory.moveAssign (⟨[none]⟩ : RawMemory Nat) ⟨[none, none]⟩).2).Capacity ≠ 0 := by
  decide

/-- Claim C8 (amended): moving a `RawMemory` never duplicates the
allocation.  Move CONSTRUCTION transfers the allocation to the new object
and leaves the source with capacity 0 and an empty (null) allocation; move
ASSIGNMENT is a swap: the destination receives the source's allocation and
the source receives the destination's previous allocation (so the source is
left empty only when the destination owned nothing). -/
theorem claim_C8_move_never_duplicates {α : Type} :
    (∀ o : RawMemory α, (RawMemory.moveCtor o).1 = o ∧
      (RawMemory.moveCtor o).2.Capacity = 0 ∧ (RawMemory.moveCtor o).2.buffer = []) ∧
    (∀ t s : RawMemory α, RawMemory.moveAssign t s = (s, t)) :=
  ⟨fun o => ⟨rfl, rfl, rfl⟩, fun t s => rfl⟩

/-- Claim C9: `Vector` move assignment is a symmetric swap: afterwards the
target holds exactly the source's prior elements, size and capacity, and
the source holds exactly the target's prior elements, size and capacity. -/
theorem claim_C9_move_assign_is_swap {α : Type} :
    ∀ t s : Vector α,
      (t.moveAssign s).1 = s ∧ (t.moveAssign s).2 = t ∧
      (t.moveAssign s).1.size = s.size ∧ (t.moveAssign s).1.Capacity = s.Capacity ∧
      (t.moveAssign s).1.live = s.live ∧
      (t.moveAssign s).2.size = t.size ∧ (t.moveAssign s).2.Capacity = t.Capacity ∧
      (t.moveAssign s).2.live = t.live :=
  fun t s => ⟨rfl, rfl, rfl, rfl, rfl, rfl, rfl, rfl⟩

/-- Claim C10: self copy-assignment (`this == &rhs`, modelled by the
`self = true` flag with `rhs = v`) is a no-op: the vector is returned
unchanged, and since the result does not depend on the copy oracle `c` —
even an always-failing one — no element copy is ever invoked. -/
theorem claim_C10_self_assignment_noop {α : Type} :
    ∀ (c : α → Option α) (v : Vector α), v.assignOp c true v = .ok v :=
  fun c v => rfl
